import Mathlib

/-!
Verification of `kernel_vec_add`

Source: `software/spmd/bsg_cuda_lite_runtime/vec_add/kernel_vec_add.cpp`.

```
bsg_barrier<bsg_tiles_X, bsg_tiles_Y> barrier;

int kernel_vec_add_single_tile(int *A, int *B, int *C, unsigned WIDTH);   // declared only

int kernel_vec_add(int *A, int *B, int *C, int N, int block_size_x) {
  kernel_vec_add_single_tile(A, B, C, block_size_x);
  barrier.sync();
  return 0;
}
```

The kernel is embedded as a program over its two outside calls (`Prog`).  That one
definition is given two semantics:

* `Prog.run`: one invocation seen in isolation.  The two callees are arbitrary
  state transformers supplied by a `Runtime`; every call made is logged.
* `step` / `exec`: a tile group, one program per tile, interleaved by a schedule.
  `sync()` is the barrier modelled from the specification, and a tile inside
  `sync()` is blocked until the barrier releases.
* `fstep` / `fexec`: the same steps on a memory in which a write of a tile reaches
  the other tiles only when published, with `sync()` as the fence.
-/

set_option linter.unusedVariables false

namespace VecAdd

/-! ## Machine integers -/

/-- Conversion of a C `int` to `unsigned` (32 bits): the value modulo `2^32`.  It is the
implicit conversion applied to `block_size_x` where it is passed as `unsigned WIDTH`. -/
def toUnsigned (x : Int) : Nat := (x % 4294967296).toNat

/-- Two's-complement wrap of an integer to the range of a 32-bit `int`. -/
def wrapInt32 (x : Int) : Int := (x + 2147483648) % 4294967296 - 2147483648

/-! ## The kernel as a program over its outside calls -/

/-- One call leaving `kernel_vec_add`, with the arguments it was given. -/
inductive Call (Ptr : Type) where
  | kernel_vec_add_single_tile (A B C : Ptr) (WIDTH : Nat)
  | barrier_sync
  deriving DecidableEq, Repr

/-- Programs whose only effects are the two calls made by the kernel.  The continuation
of `call_single_tile` receives the `int` the callee returned. -/
inductive Prog (Ptr : Type) (α : Type) where
  | ret (v : α)
  | call_single_tile (A B C : Ptr) (WIDTH : Nat) (k : Int → Prog Ptr α)
  | call_sync (k : Prog Ptr α)

/-- The body of `kernel_vec_add`, statement by statement: call the single-tile routine
with `block_size_x` converted to `unsigned` and drop its result, call `barrier.sync()`,
`return 0`.  `N` is a parameter of the function and is not used by it. -/
def kernel_vec_add {Ptr : Type} (A B C : Ptr) (N : Int) (block_size_x : Int) : Prog Ptr Int :=
  Prog.call_single_tile A B C (toUnsigned block_size_x) fun _ =>
  Prog.call_sync <|
  Prog.ret 0

/-! ## One invocation in isolation -/

/-- The two callees of the kernel as arbitrary transformers of a state `σ`. -/
structure Runtime (Ptr σ : Type) where
  kernel_vec_add_single_tile : Ptr → Ptr → Ptr → Nat → σ → Int × σ
  barrier_sync : σ → σ

/-- What one invocation leaves behind: returned value, final state, calls made in order. -/
structure Outcome (Ptr σ α : Type) where
  ret : α
  state : σ
  calls : List (Call Ptr)

/-- Run a program against a runtime, threading the state and logging each call. -/
def Prog.run {Ptr σ α : Type} (rt : Runtime Ptr σ) : Prog Ptr α → σ → Outcome Ptr σ α
  | Prog.ret v, s => ⟨v, s, []⟩
  | Prog.call_single_tile A B C W k, s =>
      let r := rt.kernel_vec_add_single_tile A B C W s
      let o := (k r.1).run rt r.2
      ⟨o.ret, o.state, Call.kernel_vec_add_single_tile A B C W :: o.calls⟩
  | Prog.call_sync k, s =>
      let o := k.run rt (rt.barrier_sync s)
      ⟨o.ret, o.state, Call.barrier_sync :: o.calls⟩

/-- The same runtime, except that the single-tile routine returns `status` whatever it
did. -/
def Runtime.withStatus {Ptr σ : Type} (rt : Runtime Ptr σ) (status : Int) : Runtime Ptr σ where
  kernel_vec_add_single_tile := fun A B C W s => (status, (rt.kernel_vec_add_single_tile A B C W s).2)
  barrier_sync := rt.barrier_sync

/-! ## The tile-group barrier -/

/-- The two logical states of a barrier epoch. -/
inductive Phase where
  | WAITING
  | RELEASED
  deriving DecidableEq, Repr

/-- Modelled from the spec: the tile-group barrier `bsg_barrier` declared in
`bsg_tile_group_barrier.hpp`, which is not among the sources.  The specification describes
it as sized for `extent_x * extent_y` participants, with an arrival counter and an epoch. -/
structure Barrier where
  participants : Nat
  arrived : Nat
  epoch : Nat
  deriving DecidableEq, Repr

/-- Modelled from the spec: `Construct(extent_x, extent_y)` of the absent `bsg_barrier`:
a barrier for `extent_x * extent_y` participants, nobody arrived, epoch 0. -/
def Barrier.construct (extent_x extent_y : Nat) : Barrier := ⟨extent_x * extent_y, 0, 0⟩

/-- Modelled from the spec: the state machine of the absent `bsg_barrier`: WAITING while
fewer than all participants have arrived, RELEASED once all have. -/
def Barrier.phase (b : Barrier) : Phase :=
  if b.arrived < b.participants then Phase.WAITING else Phase.RELEASED

/-- Modelled from the spec: one more participant of the absent `bsg_barrier` has called
`sync()`. -/
def Barrier.arrive (b : Barrier) : Barrier := ⟨b.participants, b.arrived + 1, b.epoch⟩

/-- Modelled from the spec: the reset of the absent `bsg_barrier` after a release: the
arrival count returns to zero and the next epoch begins. -/
def Barrier.reset (b : Barrier) : Barrier := ⟨b.participants, 0, b.epoch + 1⟩

/-- Modelled from the spec: the effect on the absent `bsg_barrier` of one participant
entering `sync()`: it is counted; if that makes the barrier RELEASED, the barrier resets
for the next epoch. -/
def Barrier.sync_arrive (b : Barrier) : Barrier :=
  if b.arrive.phase = Phase.RELEASED then b.arrive.reset else b.arrive

/-- Modelled from the spec: the blocking condition of `sync()` of the absent
`bsg_barrier`: a caller that arrived in epoch `e` is held while the barrier is still in
epoch `e`; it is let go once the barrier has released that epoch and reset into the next. -/
def Barrier.holds (b : Barrier) (e : Nat) : Bool := decide (b.epoch = e)

/-- The barrier after `n` further participants have entered `sync()`. -/
def Barrier.arrivals : Nat → Barrier → Barrier
  | 0, b => b
  | n + 1, b => (Barrier.arrivals n b).sync_arrive

/-- The module-level object `bsg_barrier<bsg_tiles_X, bsg_tiles_Y> barrier;`.  The two
extents are macros of the build and are taken as parameters. -/
def barrier (bsg_tiles_X bsg_tiles_Y : Nat) : Barrier :=
  Barrier.construct bsg_tiles_X bsg_tiles_Y

/-! ## A tile group running the kernel -/

/-- The arguments one tile passes to `kernel_vec_add`. -/
structure KernelArgs (Ptr : Type) where
  A : Ptr
  B : Ptr
  C : Ptr
  N : Int
  block_size_x : Int

/-- Control state of one tile: executing the rest of its program, or inside `sync()`
having arrived in the given epoch, with the program to resume on release. -/
inductive TileState (Ptr : Type) where
  | running (p : Prog Ptr Int)
  | blocked (epoch : Nat) (k : Prog Ptr Int)

/-- The single-tile routine as run by a given tile (first argument: the tile's index,
which stands for the tile coordinates the routine reads for itself). -/
abbrev TileRoutine (Ptr σ : Type) := Nat → Ptr → Ptr → Ptr → Nat → σ → Int × σ

/-- A tile group: the state `mem` the single-tile routines of the tiles act on (its type
is a parameter; which writes of one tile another tile can read is not settled here but by
the memory placed in it, see `FenceMem`), the one barrier of the group, and one control
state per tile. -/
structure Config (Ptr σ : Type) where
  mem : σ
  barrier : Barrier
  tiles : List (TileState Ptr)

/-- One step of tile `t`, or `none` when tile `t` cannot move: it has returned, it is
held in `sync()`, or there is no such tile.  A tile at the call of the single-tile routine
runs the routine on the shared memory; a tile at `barrier.sync()` is counted in by the
barrier and waits inside `sync()`; a tile inside `sync()` that is no longer held goes on
with the statement after the call. -/
def step {Ptr σ : Type} (f : TileRoutine Ptr σ) (t : Nat) (c : Config Ptr σ) :
    Option (Config Ptr σ) :=
  match c.tiles[t]? with
  | none => none
  | some (TileState.running (Prog.ret _)) => none
  | some (TileState.running (Prog.call_single_tile A B C W k)) =>
      let r := f t A B C W c.mem
      some ⟨r.2, c.barrier, c.tiles.set t (TileState.running (k r.1))⟩
  | some (TileState.running (Prog.call_sync k)) =>
      some ⟨c.mem, c.barrier.sync_arrive, c.tiles.set t (TileState.blocked c.barrier.epoch k)⟩
  | some (TileState.blocked e k) =>
      if c.barrier.holds e then none
      else some ⟨c.mem, c.barrier, c.tiles.set t (TileState.running k)⟩

/-- Run a schedule: each entry names the tile that is offered the next step; a tile that
cannot move leaves the configuration as it is. -/
def exec {Ptr σ : Type} (f : TileRoutine Ptr σ) : List Nat → Config Ptr σ → Config Ptr σ
  | [], c => c
  | t :: ts, c => exec f ts ((step f t c).getD c)

/-- Every tile of the group enters `kernel_vec_add` with its own arguments, on an
existing barrier and memory (neither is constructed by the launch). -/
def launchOn {Ptr σ : Type} (b : Barrier) (m : σ) (args : List (KernelArgs Ptr)) :
    Config Ptr σ :=
  ⟨m, b, args.map fun a => TileState.running (kernel_vec_add a.A a.B a.C a.N a.block_size_x)⟩

/-- First launch after load: the barrier is the freshly constructed module-level one. -/
def launch {Ptr σ : Type} (bsg_tiles_X bsg_tiles_Y : Nat) (m : σ)
    (args : List (KernelArgs Ptr)) : Config Ptr σ :=
  launchOn (barrier bsg_tiles_X bsg_tiles_Y) m args

/-- Steps a tile inside `kernel_vec_add` still has to take: 3 before the single-tile
routine, 2 before `sync()`, 1 while inside `sync()`, 0 once `sync()` has returned and the
kernel has returned. -/
def TileState.pending {Ptr : Type} : TileState Ptr → Nat
  | TileState.running (Prog.call_single_tile _ _ _ _ _) => 3
  | TileState.running (Prog.call_sync _) => 2
  | TileState.blocked _ _ => 1
  | TileState.running (Prog.ret _) => 0

/-- The value a tile has returned from the kernel, if it has returned. -/
def TileState.returned {Ptr : Type} : TileState Ptr → Option Int
  | TileState.running (Prog.ret v) => some v
  | _ => none

/-- Sum of the pending steps of all tiles. -/
def totalPending {Ptr : Type} (l : List (TileState Ptr)) : Nat :=
  (l.map TileState.pending).sum

/-! ## The single-tile routine as an element-wise add -/

/-- Memory as a collection of `int` arrays, addressed by the array a pointer refers to. -/
abbrev Heap := Nat → List Int

/-- Read `p[i]` (0 when `i` is past the end of the array). -/
def Heap.load (h : Heap) (p i : Nat) : Int := (h p).getD i 0

/-- Write `p[i] = v` (no effect when `i` is past the end of the array). -/
def Heap.store (h : Heap) (p i : Nat) (v : Int) : Heap :=
  fun q => if q = p then (h p).set i v else h q

/-- Modelled from the spec: the loop of `kernel_vec_add_single_tile`, whose body is not
among the sources; the specification takes it to be a straightforward element-wise add:
`for (i = 0; i < WIDTH; i++) C[i] = A[i] + B[i];` with 32-bit `int` addition. -/
def add_elements (A B C : Nat) : Nat → Heap → Heap
  | 0, h => h
  | i + 1, h =>
      let h' := add_elements A B C i h
      h'.store C i (wrapInt32 (h'.load A i + h'.load B i))

/-- Modelled from the spec: `kernel_vec_add_single_tile`, whose body is not among the
sources, as the element-wise add over the first `WIDTH` elements.  The specification does
not say what it returns, so the returned `int` is a parameter. -/
def single_tile_add (status : Int) (A B C : Nat) (WIDTH : Nat) (h : Heap) : Int × Heap :=
  (status, add_elements A B C WIDTH h)

/-- The runtime of a tile running alone: memory and barrier make up the state, the
single-tile routine is the element-wise add and `sync()` counts the caller in. -/
def addRuntime (status : Int) : Runtime Nat (Heap × Barrier) where
  kernel_vec_add_single_tile := fun A B C W s => ((single_tile_add status A B C W s.1).1,
    ((single_tile_add status A B C W s.1).2, s.2))
  barrier_sync := fun s => (s.1, s.2.sync_arrive)

/-- Memory holding `A` as array 0, `B` as array 1 and `C` as array 2. -/
def heapOf (A B C : List Int) : Heap
  | 0 => A
  | 1 => B
  | 2 => C
  | _ => []

/-! ## A two-tile scenario -/

/-- The routine of the two-tile scenario: tile 0 writes `v` to the location `C` points to;
no other tile writes.  Here the state the routines act on maps a location to an `int`. -/
def cellRoutine (v : Int) : TileRoutine Nat (Nat → Int) :=
  fun t A B C WIDTH s => if t = 0 then (0, Function.update s C v) else (0, s)

/-- Arguments of the two tiles in the scenario: both are handed location 5 as `C`. -/
def demoArgs : List (KernelArgs Nat) := [⟨0, 1, 5, 2, 1⟩, ⟨0, 1, 5, 2, 1⟩]

/-! ## Memory with `sync()` as its fence -/

/-- The control states a tile passes through inside `kernel_vec_add` when it entered the
kernel with arguments `a` and the launch began in barrier epoch `n`. -/
def TileState.ofKernel {Ptr : Type} (n : Nat) (a : KernelArgs Ptr) (ts : TileState Ptr) : Prop :=
  ts = TileState.running (kernel_vec_add a.A a.B a.C a.N a.block_size_x) ∨
  ts = TileState.running (Prog.call_sync (Prog.ret 0)) ∨
  ts = TileState.blocked n (Prog.ret 0) ∨
  ts = TileState.running (Prog.ret 0)

/-- Is 1 for a tile that has entered `sync()` and 0 otherwise. -/
def TileState.arrivedFlag {Ptr : Type} (ts : TileState Ptr) : Nat :=
  if ts.pending ≤ 1 then 1 else 0

/-- Is 1 for a tile for which `sync()` has returned and 0 otherwise. -/
def TileState.returnedFlag {Ptr : Type} (ts : TileState Ptr) : Nat :=
  if ts.pending = 0 then 1 else 0

/-- Number of tiles that have entered `sync()`. -/
def countArrived {Ptr : Type} (l : List (TileState Ptr)) : Nat :=
  (l.map TileState.arrivedFlag).sum

/-- Number of tiles for which `sync()` has returned. -/
def countReturned {Ptr : Type} (l : List (TileState Ptr)) : Nat :=
  (l.map TileState.returnedFlag).sum

/-- Invariant of a launch of `args.length` tiles on a barrier that was in epoch `n` with
nobody arrived: every tile is at a point of the kernel; while the barrier is still in
epoch `n` it has counted exactly the tiles inside `sync()`, not all of them, and no tile
is past `sync()`; otherwise the barrier is in epoch `n + 1` with nobody arrived and every
tile has entered `sync()`. -/
def LaunchInv {Ptr σ : Type} (n : Nat) (args : List (KernelArgs Ptr)) (c : Config Ptr σ) : Prop :=
  c.barrier.participants = args.length ∧
  c.tiles.length = args.length ∧
  (∀ (t : Nat) (a : KernelArgs Ptr) (ts : TileState Ptr),
    args[t]? = some a → c.tiles[t]? = some ts → TileState.ofKernel n a ts) ∧
  ((c.barrier.epoch = n ∧ c.barrier.arrived = countArrived c.tiles ∧
      countArrived c.tiles < args.length ∧ countReturned c.tiles = 0) ∨
   (c.barrier.epoch = n + 1 ∧ c.barrier.arrived = 0 ∧
      countArrived c.tiles = args.length))

end VecAdd

/-! # Theorems -/

namespace VecAdd

/-! ## One invocation in isolation -/

/-- C1: whatever the arguments and whatever the single-tile routine does or returns,
`kernel_vec_add` returns 0; replacing the status returned by the single-tile routine by
any other value changes nothing in the outcome of the invocation (returned value, final
state, calls made), so that status is discarded. -/
theorem kernel_vec_add_returns_zero {Ptr σ : Type} (rt : Runtime Ptr σ) (A B C : Ptr)
    (N block_size_x : Int) (s : σ) :
    ((kernel_vec_add A B C N block_size_x).run rt s).ret = 0 ∧
    ∀ status : Int,
      (kernel_vec_add A B C N block_size_x).run (rt.withStatus status) s =
        (kernel_vec_add A B C N block_size_x).run rt s :=
  ⟨rfl, fun _ => rfl⟩

/-- C3: the calls made by one invocation are, in order, exactly the single-tile routine
on the caller's `A`, `B`, `C` and the converted `block_size_x`, then `sync()`; the state
the invocation returns in is the one `sync()` left, and `sync()` started from the state
the single-tile routine left. -/
theorem kernel_vec_add_calls {Ptr σ : Type} (rt : Runtime Ptr σ) (A B C : Ptr)
    (N block_size_x : Int) (s : σ) :
    ((kernel_vec_add A B C N block_size_x).run rt s).calls =
        [Call.kernel_vec_add_single_tile A B C (toUnsigned block_size_x), Call.barrier_sync] ∧
    ((kernel_vec_add A B C N block_size_x).run rt s).state =
        rt.barrier_sync (rt.kernel_vec_add_single_tile A B C (toUnsigned block_size_x) s).2 :=
  ⟨rfl, rfl⟩

/-- C4: no argument values make the kernel reject or cut short: for all `N`,
`block_size_x` and pointers the single-tile routine is called, `sync()` is called and 0 is
returned; there is no input with a non-zero status or with either call missing. -/
theorem kernel_vec_add_no_validation {Ptr σ : Type} (rt : Runtime Ptr σ) :
    (∀ (A B C : Ptr) (N block_size_x : Int) (s : σ),
      ((kernel_vec_add A B C N block_size_x).run rt s).ret = 0 ∧
      Call.kernel_vec_add_single_tile A B C (toUnsigned block_size_x) ∈
        ((kernel_vec_add A B C N block_size_x).run rt s).calls ∧
      Call.barrier_sync ∈ ((kernel_vec_add A B C N block_size_x).run rt s).calls) ∧
    ¬ ∃ (A B C : Ptr) (N block_size_x : Int) (s : σ),
      ((kernel_vec_add A B C N block_size_x).run rt s).ret ≠ 0 ∨
      (∀ W, Call.kernel_vec_add_single_tile A B C W ∉
        ((kernel_vec_add A B C N block_size_x).run rt s).calls) ∨
      Call.barrier_sync ∉ ((kernel_vec_add A B C N block_size_x).run rt s).calls := by
  have key : ∀ (A B C : Ptr) (N block_size_x : Int) (s : σ),
      ((kernel_vec_add A B C N block_size_x).run rt s).ret = 0 ∧
      Call.kernel_vec_add_single_tile A B C (toUnsigned block_size_x) ∈
        ((kernel_vec_add A B C N block_size_x).run rt s).calls ∧
      Call.barrier_sync ∈ ((kernel_vec_add A B C N block_size_x).run rt s).calls := by
    intro A B C N bs s
    refine ⟨rfl, ?_, ?_⟩
    · exact List.mem_cons_self _ _
    · exact List.mem_cons_of_mem _ (List.mem_cons_self _ _)
  refine ⟨key, ?_⟩
  rintro ⟨A, B, C, N, bs, s, h⟩
  obtain ⟨h0, h1, h2⟩ := key A B C N bs s
  rcases h with h | h | h
  · exact h h0
  · exact h _ h1
  · exact h h2

/-- C8: for `block_size_x` in the range of `int`, the width the single-tile routine is
called with is `block_size_x mod 2^32`: `block_size_x` itself when it is not negative,
and `block_size_x + 2^32`, which is at least `2^31`, when it is negative. -/
theorem kernel_vec_add_width {Ptr σ : Type} (rt : Runtime Ptr σ) (A B C : Ptr)
    (N block_size_x : Int) (s : σ)
    (hlo : -2147483648 ≤ block_size_x) (hhi : block_size_x < 2147483648) :
    ∃ WIDTH : Nat,
      ((kernel_vec_add A B C N block_size_x).run rt s).calls.head? =
        some (Call.kernel_vec_add_single_tile A B C WIDTH) ∧
      (WIDTH : Int) = block_size_x % 4294967296 ∧
      (0 ≤ block_size_x → (WIDTH : Int) = block_size_x) ∧
      (block_size_x < 0 → (WIDTH : Int) = block_size_x + 4294967296 ∧ 2147483648 ≤ WIDTH) := by
  refine ⟨toUnsigned block_size_x, rfl, ?_⟩
  have hW : ((toUnsigned block_size_x : Nat) : Int) = block_size_x % 4294967296 := by
    unfold toUnsigned
    exact Int.toNat_of_nonneg (Int.emod_nonneg _ (by decide))
  refine ⟨hW, ?_, ?_⟩
  · intro h0
    rw [hW]
    exact Int.emod_eq_of_lt h0 (by omega)
  · intro hneg
    have : (toUnsigned block_size_x : Int) = block_size_x + 4294967296 := by
      rw [hW]; omega
    constructor
    · exact this
    · have h2 : (2147483648 : Int) ≤ (toUnsigned block_size_x : Int) := by rw [this]; omega
      exact_mod_cast h2

/-- Witness of C8: `block_size_x = -1` is in the range of `int` and is passed on as
`WIDTH = 4294967295`. -/
theorem kernel_vec_add_width_witness :
    ((-2147483648 : Int) ≤ -1 ∧ (-1 : Int) < 2147483648) ∧
    ∃ WIDTH : Nat,
      ((kernel_vec_add 0 1 2 4 (-1)).run (addRuntime 0)
          (heapOf [] [] [], barrier 1 1)).calls.head? =
        some (Call.kernel_vec_add_single_tile 0 1 2 WIDTH) ∧
      (WIDTH : Int) = (-1) % 4294967296 ∧
      (0 ≤ (-1 : Int) → (WIDTH : Int) = -1) ∧
      ((-1 : Int) < 0 → (WIDTH : Int) = -1 + 4294967296 ∧ 2147483648 ≤ WIDTH) :=
  ⟨⟨by decide, by decide⟩,
    kernel_vec_add_width (addRuntime 0) 0 1 2 4 (-1) (heapOf [] [] [], barrier 1 1)
      (by decide) (by decide)⟩

/-- C9: `N` is ignored: two invocations that differ only in `N` are the same program, so
against every runtime and from every state they make the same calls with the same
arguments, end in the same state and return the same value; the width passed on is the
converted `block_size_x` whatever `N` is. -/
theorem kernel_vec_add_ignores_N {Ptr σ : Type} (A B C : Ptr) (N1 N2 block_size_x : Int) :
    kernel_vec_add A B C N1 block_size_x = kernel_vec_add A B C N2 block_size_x ∧
    ∀ (rt : Runtime Ptr σ) (s : σ),
      (kernel_vec_add A B C N1 block_size_x).run rt s =
        (kernel_vec_add A B C N2 block_size_x).run rt s ∧
      ((kernel_vec_add A B C N1 block_size_x).run rt s).calls.head? =
        some (Call.kernel_vec_add_single_tile A B C (toUnsigned block_size_x)) :=
  ⟨rfl, fun _ _ => ⟨rfl, rfl⟩⟩

/-! ## The element-wise add -/

/-- The loop writes to `C` only. -/
theorem add_elements_other (A B C : Nat) (n : Nat) (h : Heap) (p : Nat) (hp : p ≠ C) :
    add_elements A B C n h p = h p := by
  induction n with
  | zero => rfl
  | succ n ih => simp [add_elements, Heap.store, hp, ih]

/-- The loop keeps the length of every array. -/
theorem add_elements_length (A B C : Nat) (n : Nat) (h : Heap) (p : Nat) :
    (add_elements A B C n h p).length = (h p).length := by
  induction n with
  | zero => rfl
  | succ n ih =>
      by_cases hp : p = C
      · subst hp
        simp [add_elements, Heap.store, ih]
      · simp [add_elements, Heap.store, hp, ih]

/-- After `n` iterations the elements from index `n` on are untouched. -/
theorem add_elements_above (A B C : Nat) (n : Nat) (h : Heap) (p i : Nat) (hi : n ≤ i) :
    (add_elements A B C n h p)[i]? = (h p)[i]? := by
  induction n with
  | zero => rfl
  | succ n ih =>
      have hne : n ≠ i := by omega
      by_cases hp : p = C
      · subst hp
        simp only [add_elements, Heap.store, if_true]
        rw [List.getElem?_set_ne hne]
        exact ih (by omega)
      · simp only [add_elements, Heap.store, if_neg hp]
        exact ih (by omega)

/-- Reads at index `n` or above see the values from before the loop. -/
theorem add_elements_load_above (A B C : Nat) (n : Nat) (h : Heap) (p i : Nat) (hi : n ≤ i) :
    (add_elements A B C n h).load p i = h.load p i := by
  unfold Heap.load
  simp only [List.getD_eq_getElem?_getD]
  rw [add_elements_above A B C n h p i hi]

/-- After `n` iterations `C[i]` holds the wrapped sum for every `i < n`. -/
theorem add_elements_below (A B C : Nat) (n : Nat) (h : Heap) (i : Nat) (hi : i < n)
    (hC : n ≤ (h C).length) :
    (add_elements A B C n h C)[i]? = some (wrapInt32 (h.load A i + h.load B i)) := by
  induction n with
  | zero => omega
  | succ n ih =>
      simp only [add_elements, Heap.store, if_true]
      by_cases hin : i = n
      · subst hin
        rw [List.getElem?_set_self (by rw [add_elements_length]; omega)]
        rw [add_elements_load_above A B C i h A i (le_refl _),
          add_elements_load_above A B C i h B i (le_refl _)]
      · rw [List.getElem?_set_ne (fun h' => hin h'.symm)]
        exact ih (by omega) (by omega)

/-- C2: with the single-tile routine taken to be the element-wise add over the first
`WIDTH` elements (returning any status), one invocation on a tile group of one tile, for
`0 ≤ block_size_x` and arrays `A`, `B`, `C` of length at least `block_size_x`, returns 0
and leaves `C[i] = A[i] + B[i]` (32-bit addition of the values `A` and `B` held at the
call) for every `i < block_size_x`.  Every array other than `C` is left as it was, so
`A` and `B` still hold those values when they are not `C` itself; `C` keeps its length;
the barrier has released the one caller and is in its next epoch. -/
theorem kernel_vec_add_pass_through (status : Int) (h : Heap) (A B C : Nat)
    (N block_size_x : Int) (h0 : 0 ≤ block_size_x) (h31 : block_size_x < 2147483648)
    (hA : block_size_x ≤ (h A).length) (hB : block_size_x ≤ (h B).length)
    (hC : block_size_x ≤ (h C).length) :
    ((kernel_vec_add A B C N block_size_x).run (addRuntime status) (h, barrier 1 1)).ret = 0 ∧
    (∀ i : Nat, (i : Int) < block_size_x →
      ∃ a b : Int, (h A)[i]? = some a ∧ (h B)[i]? = some b ∧
        (((kernel_vec_add A B C N block_size_x).run (addRuntime status)
          (h, barrier 1 1)).state.1 C)[i]? = some (wrapInt32 (a + b))) ∧
    (∀ p : Nat, p ≠ C →
      ((kernel_vec_add A B C N block_size_x).run (addRuntime status)
        (h, barrier 1 1)).state.1 p = h p) ∧
    (((kernel_vec_add A B C N block_size_x).run (addRuntime status)
      (h, barrier 1 1)).state.1 C).length = (h C).length ∧
    ((kernel_vec_add A B C N block_size_x).run (addRuntime status) (h, barrier 1 1)).state.2 =
      ⟨1, 0, 1⟩ := by
  have hW : ((toUnsigned block_size_x : Nat) : Int) = block_size_x := by
    unfold toUnsigned
    rw [Int.toNat_of_nonneg (Int.emod_nonneg _ (by decide))]
    exact Int.emod_eq_of_lt h0 (by omega)
  have hst : ((kernel_vec_add A B C N block_size_x).run (addRuntime status)
      (h, barrier 1 1)).state.1 = add_elements A B C (toUnsigned block_size_x) h := rfl
  refine ⟨rfl, ?_, ?_, ?_, rfl⟩
  rotate_left
  · intro p hp
    rw [hst]
    exact add_elements_other A B C _ h p hp
  · rw [hst, add_elements_length]
  · intro i hi
    have hiA : i < (h A).length := by omega
    have hiB : i < (h B).length := by omega
    refine ⟨(h A)[i], (h B)[i], List.getElem?_eq_getElem hiA, List.getElem?_eq_getElem hiB, ?_⟩
    rw [hst, add_elements_below A B C _ h i (by omega) (by omega)]
    simp [Heap.load, List.getD_eq_getElem?_getD, List.getElem?_eq_getElem hiA,
      List.getElem?_eq_getElem hiB]

/-- Witness of C2: `A = [1,2,3,4]`, `B = [10,20,30,40]`, `block_size_x = 4`, `N = 4`
(the routine returning status 7) give `C = [11,22,33,44]` and the return value 0. -/
theorem kernel_vec_add_pass_through_witness :
    ((0 : Int) ≤ 4 ∧ (4 : Int) < 2147483648 ∧
      (4 : Int) ≤ (heapOf [1, 2, 3, 4] [10, 20, 30, 40] [0, 0, 0, 0] 0).length ∧
      (4 : Int) ≤ (heapOf [1, 2, 3, 4] [10, 20, 30, 40] [0, 0, 0, 0] 1).length ∧
      (4 : Int) ≤ (heapOf [1, 2, 3, 4] [10, 20, 30, 40] [0, 0, 0, 0] 2).length) ∧
    ((kernel_vec_add 0 1 2 4 4).run (addRuntime 7)
        (heapOf [1, 2, 3, 4] [10, 20, 30, 40] [0, 0, 0, 0], barrier 1 1)).state.1 2 =
      [11, 22, 33, 44] ∧
    ((kernel_vec_add 0 1 2 4 4).run (addRuntime 7)
        (heapOf [1, 2, 3, 4] [10, 20, 30, 40] [0, 0, 0, 0], barrier 1 1)).ret = 0 ∧
    (∀ i : Nat, (i : Int) < 4 →
      ∃ a b : Int, (heapOf [1, 2, 3, 4] [10, 20, 30, 40] [0, 0, 0, 0] 0)[i]? = some a ∧
        (heapOf [1, 2, 3, 4] [10, 20, 30, 40] [0, 0, 0, 0] 1)[i]? = some b ∧
        (((kernel_vec_add 0 1 2 4 4).run (addRuntime 7)
          (heapOf [1, 2, 3, 4] [10, 20, 30, 40] [0, 0, 0, 0], barrier 1 1)).state.1 2)[i]? =
            some (wrapInt32 (a + b))) :=
  ⟨by decide, by decide,
   (kernel_vec_add_pass_through 7 (heapOf [1, 2, 3, 4] [10, 20, 30, 40] [0, 0, 0, 0]) 0 1 2 4 4
      (by decide) (by decide) (by decide) (by decide) (by decide)).1,
   (kernel_vec_add_pass_through 7 (heapOf [1, 2, 3, 4] [10, 20, 30, 40] [0, 0, 0, 0]) 0 1 2 4 4
      (by decide) (by decide) (by decide) (by decide) (by decide)).2.1⟩

/-! ## A tile group: general facts -/

/-- Replacing one entry of a list changes a sum over the list by the difference of the
two entries. -/
theorem sum_map_set {α : Type} (g : α → Nat) (l : List α) (t : Nat) (old x : α)
    (h : l[t]? = some old) :
    ((l.set t x).map g).sum + g old = (l.map g).sum + g x := by
  induction l generalizing t with
  | nil => simp at h
  | cons y ys ih =>
      cases t with
      | zero =>
          simp only [List.getElem?_cons_zero, Option.some.injEq] at h
          subst h
          simp only [List.set_cons_zero, List.map_cons, List.sum_cons]
          omega
      | succ t =>
          simp only [List.getElem?_cons_succ] at h
          have := ih t h
          simp only [List.set_cons_succ, List.map_cons, List.sum_cons]
          omega

/-- When flags bounded by 1 sum to the length of the list, every flag is 1. -/
theorem sum_map_eq_length {α : Type} (g : α → Nat) (hg : ∀ x, g x ≤ 1) (l : List α)
    (h : (l.map g).sum = l.length) : ∀ x ∈ l, g x = 1 := by
  induction l with
  | nil => intro x hx; simp at hx
  | cons y ys ih =>
      simp only [List.map_cons, List.sum_cons, List.length_cons] at h
      have hle : (ys.map g).sum ≤ ys.length := by
        clear ih h
        induction ys with
        | nil => simp
        | cons z zs ihz =>
            simp only [List.map_cons, List.sum_cons, List.length_cons]
            have := hg z
            omega
      have hy := hg y
      intro x hx
      rcases List.mem_cons.1 hx with rfl | hx
      · omega
      · exact ih (by omega) x hx

/-- When a sum of naturals is 0, every summand is 0. -/
theorem sum_map_eq_zero {α : Type} (g : α → Nat) (l : List α)
    (h : (l.map g).sum = 0) : ∀ x ∈ l, g x = 0 := by
  induction l with
  | nil => intro x hx; simp at hx
  | cons y ys ih =>
      simp only [List.map_cons, List.sum_cons] at h
      intro x hx
      rcases List.mem_cons.1 hx with rfl | hx
      · omega
      · exact ih (by omega) x hx

/-- Running two schedules one after the other is running their concatenation. -/
theorem exec_append {Ptr σ : Type} (f : TileRoutine Ptr σ) (s1 s2 : List Nat)
    (c : Config Ptr σ) : exec f (s1 ++ s2) c = exec f s2 (exec f s1 c) := by
  induction s1 generalizing c with
  | nil => rfl
  | cons t ts ih => exact ih _

/-- The three steps a tile inside `kernel_vec_add` can take: run the single-tile
routine, enter `sync()`, leave `sync()` once released. -/
theorem step_cases {Ptr σ : Type} (f : TileRoutine Ptr σ) (n : Nat)
    (args : List (KernelArgs Ptr)) (c c' : Config Ptr σ) (t : Nat)
    (hinv : LaunchInv n args c) (hs : step f t c = some c') :
    ∃ a, args[t]? = some a ∧
      ((c.tiles[t]? = some (TileState.running (kernel_vec_add a.A a.B a.C a.N a.block_size_x)) ∧
          c' = ⟨(f t a.A a.B a.C (toUnsigned a.block_size_x) c.mem).2, c.barrier,
            c.tiles.set t (TileState.running (Prog.call_sync (Prog.ret 0)))⟩) ∨
       (c.tiles[t]? = some (TileState.running (Prog.call_sync (Prog.ret 0))) ∧
          c' = ⟨c.mem, c.barrier.sync_arrive,
            c.tiles.set t (TileState.blocked c.barrier.epoch (Prog.ret 0))⟩) ∨
       (c.tiles[t]? = some (TileState.blocked n (Prog.ret 0)) ∧ c.barrier.epoch ≠ n ∧
          c' = ⟨c.mem, c.barrier, c.tiles.set t (TileState.running (Prog.ret 0))⟩)) := by
  obtain ⟨hp, hlen, hk, hb⟩ := hinv
  unfold step at hs
  cases hts : c.tiles[t]? with
  | none => simp [hts] at hs
  | some ts =>
      have htlt : t < c.tiles.length := (List.getElem?_eq_some_iff.1 hts).1
      have ha : args[t]? = some args[t] := List.getElem?_eq_getElem (by omega)
      refine ⟨args[t], ha, ?_⟩
      rw [hts] at hs
      rcases hk t _ ts ha hts with h1 | h1 | h1 | h1
      · subst h1
        simp only [kernel_vec_add, Option.some.injEq] at hs
        exact Or.inl ⟨rfl, hs.symm⟩
      · subst h1
        simp only [Option.some.injEq] at hs
        exact Or.inr (Or.inl ⟨rfl, hs.symm⟩)
      · subst h1
        simp only at hs
        split at hs
        · exact absurd hs (by simp)
        · rename_i hne
          simp only [Option.some.injEq] at hs
          exact Or.inr (Or.inr ⟨rfl, by simpa [Barrier.holds] using hne, hs.symm⟩)
      · subst h1
        simp at hs

/-- Moving one tile to another point of its kernel keeps every tile at a point of its
kernel. -/
theorem ofKernel_set {Ptr : Type} (n : Nat) (args : List (KernelArgs Ptr))
    (l : List (TileState Ptr)) (t : Nat) (a0 : KernelArgs Ptr) (x : TileState Ptr)
    (hk : ∀ (u : Nat) (a : KernelArgs Ptr) (ts : TileState Ptr),
      args[u]? = some a → l[u]? = some ts → TileState.ofKernel n a ts)
    (ha : args[t]? = some a0) (hx : TileState.ofKernel n a0 x) :
    ∀ (u : Nat) (a : KernelArgs Ptr) (ts : TileState Ptr),
      args[u]? = some a → (l.set t x)[u]? = some ts → TileState.ofKernel n a ts := by
  intro u a ts hau hu
  by_cases hut : t = u
  · subst hut
    have ht : t < l.length := by
      have := (List.getElem?_eq_some_iff.1 hu).1
      simpa using this
    rw [List.getElem?_set_self ht] at hu
    rw [ha] at hau
    simp only [Option.some.injEq] at hu hau
    subst hu; subst hau
    exact hx
  · rw [List.getElem?_set_ne hut] at hu
    exact hk u a ts hau hu

/-- A tile at the entry of the kernel has three steps to take and has not entered
`sync()`. -/
theorem flags_kernel {Ptr : Type} (a : KernelArgs Ptr) :
    (TileState.running (kernel_vec_add a.A a.B a.C a.N a.block_size_x)).pending = 3 ∧
    (TileState.running (kernel_vec_add a.A a.B a.C a.N a.block_size_x)).arrivedFlag = 0 ∧
    (TileState.running (kernel_vec_add a.A a.B a.C a.N a.block_size_x)).returnedFlag = 0 :=
  ⟨rfl, rfl, rfl⟩

/-- A tile at the call of `sync()` has two steps to take and has not entered it. -/
theorem flags_before_sync {Ptr : Type} :
    (TileState.running (Prog.call_sync (Prog.ret 0)) : TileState Ptr).pending = 2 ∧
    (TileState.running (Prog.call_sync (Prog.ret 0)) : TileState Ptr).arrivedFlag = 0 ∧
    (TileState.running (Prog.call_sync (Prog.ret 0)) : TileState Ptr).returnedFlag = 0 :=
  ⟨rfl, rfl, rfl⟩

/-- A tile inside `sync()` has one step to take and has arrived. -/
theorem flags_blocked {Ptr : Type} (e : Nat) :
    (TileState.blocked e (Prog.ret 0) : TileState Ptr).pending = 1 ∧
    (TileState.blocked e (Prog.ret 0) : TileState Ptr).arrivedFlag = 1 ∧
    (TileState.blocked e (Prog.ret 0) : TileState Ptr).returnedFlag = 0 :=
  ⟨rfl, rfl, rfl⟩

/-- A tile that has returned has no step to take. -/
theorem flags_returned {Ptr : Type} :
    (TileState.running (Prog.ret 0) : TileState Ptr).pending = 0 ∧
    (TileState.running (Prog.ret 0) : TileState Ptr).arrivedFlag = 1 ∧
    (TileState.running (Prog.ret 0) : TileState Ptr).returnedFlag = 1 :=
  ⟨rfl, rfl, rfl⟩

/-- The arrival flag is 0 or 1. -/
theorem arrivedFlag_le_one {Ptr : Type} (ts : TileState Ptr) : ts.arrivedFlag ≤ 1 := by
  unfold TileState.arrivedFlag
  split <;> omega

/-- Every step keeps the invariant of the launch and takes one pending step away. -/
theorem step_preserves {Ptr σ : Type} (f : TileRoutine Ptr σ) (n : Nat)
    (args : List (KernelArgs Ptr)) (c c' : Config Ptr σ) (t : Nat)
    (hinv : LaunchInv n args c) (hs : step f t c = some c') :
    LaunchInv n args c' ∧ totalPending c'.tiles + 1 = totalPending c.tiles := by
  obtain ⟨a, ha, hcase⟩ := step_cases f n args c c' t hinv hs
  obtain ⟨hp, hlen, hk, hb⟩ := hinv
  rcases hcase with ⟨hts, rfl⟩ | ⟨hts, rfl⟩ | ⟨hts, hne, rfl⟩
  · -- the single-tile routine
    have hA := sum_map_set TileState.arrivedFlag c.tiles t _
      (TileState.running (Prog.call_sync (Prog.ret 0))) hts
    have hR := sum_map_set TileState.returnedFlag c.tiles t _
      (TileState.running (Prog.call_sync (Prog.ret 0))) hts
    have hP := sum_map_set TileState.pending c.tiles t _
      (TileState.running (Prog.call_sync (Prog.ret 0))) hts
    rw [(flags_kernel a).2.1, flags_before_sync.2.1] at hA
    rw [(flags_kernel a).2.2, flags_before_sync.2.2] at hR
    rw [(flags_kernel a).1, flags_before_sync.1] at hP
    refine ⟨⟨hp, by simpa using hlen,
      ofKernel_set n args c.tiles t a _ hk ha (Or.inr (Or.inl rfl)), ?_⟩, ?_⟩
    · simp only [countArrived, countReturned] at hb ⊢
      rw [show (List.map TileState.arrivedFlag (c.tiles.set t
          (TileState.running (Prog.call_sync (Prog.ret 0))))).sum =
          (List.map TileState.arrivedFlag c.tiles).sum by omega,
        show (List.map TileState.returnedFlag (c.tiles.set t
          (TileState.running (Prog.call_sync (Prog.ret 0))))).sum =
          (List.map TileState.returnedFlag c.tiles).sum by omega]
      exact hb
    · simp only [totalPending]
      omega
  · -- entering sync()
    have hA := sum_map_set TileState.arrivedFlag c.tiles t _
      (TileState.blocked c.barrier.epoch (Prog.ret 0)) hts
    have hR := sum_map_set TileState.returnedFlag c.tiles t _
      (TileState.blocked c.barrier.epoch (Prog.ret 0)) hts
    have hP := sum_map_set TileState.pending c.tiles t _
      (TileState.blocked c.barrier.epoch (Prog.ret 0)) hts
    rw [flags_before_sync.2.1, (flags_blocked _).2.1] at hA
    rw [flags_before_sync.2.2, (flags_blocked _).2.2] at hR
    rw [flags_before_sync.1, (flags_blocked _).1] at hP
    have hmem : TileState.running (Prog.call_sync (Prog.ret (0 : Int))) ∈ c.tiles :=
      List.getElem?_mem hts
    have hepoch : c.barrier.epoch = n ∧ c.barrier.arrived = countArrived c.tiles ∧
        countArrived c.tiles < args.length ∧ countReturned c.tiles = 0 := by
      rcases hb with hb | ⟨_, _, hall⟩
      · exact hb
      · exfalso
        have := sum_map_eq_length TileState.arrivedFlag arrivedFlag_le_one c.tiles
          (by rw [hlen]; exact hall) _ hmem
        rw [flags_before_sync.2.1] at this
        omega
    obtain ⟨he, harr, hlt, hret⟩ := hepoch
    refine ⟨⟨?_, by simpa using hlen, ?_, ?_⟩, ?_⟩
    · simp only [Barrier.sync_arrive, Barrier.arrive, Barrier.phase, Barrier.reset]
      split <;> exact hp
    · rw [he]
      exact ofKernel_set n args c.tiles t a _ hk ha (Or.inr (Or.inr (Or.inl rfl)))
    · simp only [countArrived, countReturned] at harr hlt hret ⊢
      by_cases hfull : c.barrier.arrived + 1 < c.barrier.participants
      · left
        have hb' : c.barrier.sync_arrive =
            ⟨c.barrier.participants, c.barrier.arrived + 1, c.barrier.epoch⟩ := by
          simp [Barrier.sync_arrive, Barrier.arrive, Barrier.phase, Barrier.reset, hfull]
        rw [hb']
        exact ⟨he, by simp only; omega, by omega, by omega⟩
      · right
        have hb' : c.barrier.sync_arrive =
            ⟨c.barrier.participants, 0, c.barrier.epoch + 1⟩ := by
          simp [Barrier.sync_arrive, Barrier.arrive, Barrier.phase, Barrier.reset, hfull]
        rw [hb']
        exact ⟨by simp only; omega, rfl, by omega⟩
    · simp only [totalPending]
      omega
  · -- leaving sync()
    have hA := sum_map_set TileState.arrivedFlag c.tiles t _
      (TileState.running (Prog.ret 0)) hts
    have hP := sum_map_set TileState.pending c.tiles t _
      (TileState.running (Prog.ret 0)) hts
    rw [(flags_blocked _).2.1, flags_returned.2.1] at hA
    rw [(flags_blocked _).1, flags_returned.1] at hP
    refine ⟨⟨hp, by simpa using hlen,
      ofKernel_set n args c.tiles t a _ hk ha (Or.inr (Or.inr (Or.inr rfl))), ?_⟩, ?_⟩
    · rcases hb with ⟨he, _⟩ | ⟨he, harr, hall⟩
      · exact absurd he hne
      · right
        simp only [countArrived] at hall ⊢
        exact ⟨he, harr, by omega⟩
    · simp only [totalPending]
      omega

/-- Flags that are all 1 sum to the length of the list. -/
theorem sum_map_all_one {α : Type} (g : α → Nat) (l : List α)
    (h : ∀ x ∈ l, g x = 1) : (l.map g).sum = l.length := by
  induction l with
  | nil => rfl
  | cons y ys ih =>
      simp only [List.map_cons, List.sum_cons, List.length_cons]
      rw [h y (List.mem_cons_self _ _), ih (fun x hx => h x (List.mem_cons_of_mem _ hx))]
      omega

/-- At launch no tile has arrived or returned and each has three steps to take. -/
theorem launchOn_counts {Ptr σ : Type} (b : Barrier) (m : σ) (args : List (KernelArgs Ptr)) :
    countArrived (launchOn b m args).tiles = 0 ∧
    countReturned (launchOn b m args).tiles = 0 ∧
    totalPending (launchOn b m args).tiles = 3 * args.length := by
  induction args with
  | nil => exact ⟨rfl, rfl, rfl⟩
  | cons a rest ih =>
      obtain ⟨h1, h2, h3⟩ := ih
      simp only [launchOn, countArrived, countReturned, totalPending] at h1 h2 h3 ⊢
      simp only [List.map_cons, List.sum_cons, List.length_cons, h1, h2, h3]
      refine ⟨?_, ?_, ?_⟩
      · rw [(flags_kernel a).2.1]
      · rw [(flags_kernel a).2.2]
      · rw [(flags_kernel a).1]; omega

/-- The invariant holds when at least one tile is launched on a barrier sized for the
group with nobody arrived. -/
theorem launchInv_init {Ptr σ : Type} (n : Nat) (m : σ) (args : List (KernelArgs Ptr))
    (hK : 1 ≤ args.length) :
    LaunchInv n args (launchOn (⟨args.length, 0, n⟩ : Barrier) m args) := by
  obtain ⟨h1, h2, _⟩ := launchOn_counts (⟨args.length, 0, n⟩ : Barrier) m args
  refine ⟨rfl, by simp [launchOn], ?_, Or.inl ⟨rfl, ?_, ?_, h2⟩⟩
  · intro t a ts ha hts
    simp only [launchOn, List.getElem?_map, ha, Option.map_some', Option.some.injEq] at hts
    exact Or.inl hts.symm
  · rw [h1]; rfl
  · rw [h1]; omega

/-- The invariant holds along every schedule. -/
theorem exec_inv {Ptr σ : Type} (f : TileRoutine Ptr σ) (n : Nat)
    (args : List (KernelArgs Ptr)) (sched : List Nat) (c : Config Ptr σ)
    (hinv : LaunchInv n args c) : LaunchInv n args (exec f sched c) := by
  induction sched generalizing c with
  | nil => exact hinv
  | cons t ts ih =>
      simp only [exec]
      cases hs : step f t c with
      | none => exact ih c hinv
      | some c' => exact ih c' (step_preserves f n args c c' t hinv hs).1

/-- A tile past `sync()` has returned 0, the barrier has moved to the next epoch and all
tiles have arrived. -/
theorem inv_safety {Ptr σ : Type} (n : Nat) (args : List (KernelArgs Ptr))
    (c : Config Ptr σ) (hinv : LaunchInv n args c) (t : Nat) (ts : TileState Ptr)
    (hts : c.tiles[t]? = some ts) (hret : ts.pending = 0) :
    ts = TileState.running (Prog.ret 0) ∧ c.barrier = ⟨args.length, 0, n + 1⟩ ∧
    ∀ u, u < args.length → ∃ us, c.tiles[u]? = some us ∧ us.pending ≤ 1 := by
  obtain ⟨hp, hlen, hk, hb⟩ := hinv
  have htlt : t < c.tiles.length := (List.getElem?_eq_some_iff.1 hts).1
  have ha : args[t]? = some args[t] := List.getElem?_eq_getElem (by omega)
  have hform : ts = TileState.running (Prog.ret 0) := by
    rcases hk t _ ts ha hts with h1 | h1 | h1 | h1
    · rw [h1, (flags_kernel _).1] at hret; omega
    · rw [h1, flags_before_sync.1] at hret; omega
    · rw [h1, (flags_blocked _).1] at hret; omega
    · exact h1
  have hmem : ts ∈ c.tiles := List.getElem?_mem hts
  rcases hb with ⟨_, _, _, hnone⟩ | ⟨he, harr, hall⟩
  · exfalso
    have := sum_map_eq_zero TileState.returnedFlag c.tiles hnone ts hmem
    rw [hform, flags_returned.2.2] at this
    omega
  · refine ⟨hform, ?_, ?_⟩
    · cases hbar : c.barrier with
      | mk p a e =>
          rw [hbar] at hp he harr
          simp only at hp he harr
          rw [hp, he, harr]
    · intro u hu
      have hus : c.tiles[u]? = some c.tiles[u] := List.getElem?_eq_getElem (by omega)
      refine ⟨_, hus, ?_⟩
      have := sum_map_eq_length TileState.arrivedFlag arrivedFlag_le_one c.tiles
        (by rw [hlen]; exact hall) _ (List.getElem?_mem hus)
      unfold TileState.arrivedFlag at this
      split at this
      · assumption
      · omega

/-- A tile group in which no tile can move has returned 0 on every tile. -/
theorem inv_stuck {Ptr σ : Type} (f : TileRoutine Ptr σ) (n : Nat)
    (args : List (KernelArgs Ptr)) (c : Config Ptr σ) (hinv : LaunchInv n args c)
    (hstuck : ∀ t, step f t c = none) :
    ∀ t, t < args.length → c.tiles[t]? = some (TileState.running (Prog.ret 0)) := by
  obtain ⟨hp, hlen, hk, hb⟩ := hinv
  -- every tile is blocked in the epoch of the barrier, or has returned
  have hform : ∀ t, t < args.length →
      (c.tiles[t]? = some (TileState.blocked n (Prog.ret 0)) ∧ c.barrier.epoch = n) ∨
      c.tiles[t]? = some (TileState.running (Prog.ret 0)) := by
    intro t ht
    have hts : c.tiles[t]? = some c.tiles[t] := List.getElem?_eq_getElem (by omega)
    have ha : args[t]? = some args[t] := List.getElem?_eq_getElem ht
    have hst := hstuck t
    unfold step at hst
    rw [hts] at hst
    rcases hk t _ _ ha hts with h1 | h1 | h1 | h1
    · rw [h1] at hst
      simp [kernel_vec_add] at hst
    · rw [h1] at hst
      simp at hst
    · rw [h1] at hst hts
      simp only at hst
      split at hst
      · rename_i he
        exact Or.inl ⟨hts, by simpa [Barrier.holds] using he⟩
      · simp at hst
    · rw [h1] at hts
      exact Or.inr hts
  rcases hb with ⟨he, harr, hlt, hnone⟩ | ⟨he, harr, hall⟩
  · -- no tile has returned, so all are blocked: all have arrived, which is excluded
    exfalso
    have hallb : ∀ x ∈ c.tiles, TileState.arrivedFlag x = 1 := by
      intro x hx
      obtain ⟨u, hu⟩ := List.mem_iff_getElem?.1 hx
      have hult : u < args.length := by
        have := (List.getElem?_eq_some_iff.1 hu).1
        omega
      rcases hform u hult with ⟨h1, _⟩ | h1
      · rw [h1] at hu
        simp only [Option.some.injEq] at hu
        rw [← hu]; exact (flags_blocked n).2.1
      · rw [h1] at hu
        simp only [Option.some.injEq] at hu
        rw [← hu]; exact flags_returned.2.1
    have hsum : countArrived c.tiles = c.tiles.length :=
      sum_map_all_one TileState.arrivedFlag c.tiles hallb
    omega
  · intro t ht
    rcases hform t ht with ⟨_, he'⟩ | h1
    · omega
    · exact h1

/-- From every configuration of a launch some schedule leads to all tiles having
returned 0. -/
theorem inv_complete {Ptr σ : Type} (f : TileRoutine Ptr σ) (n : Nat)
    (args : List (KernelArgs Ptr)) (k : Nat) (c : Config Ptr σ) (hinv : LaunchInv n args c)
    (hk : totalPending c.tiles = k) :
    ∃ sched : List Nat, ∀ t, t < args.length →
      (exec f sched c).tiles[t]? = some (TileState.running (Prog.ret 0)) := by
  induction k generalizing c with
  | zero =>
      refine ⟨[], inv_stuck f n args c hinv ?_⟩
      intro t
      cases hs : step f t c with
      | none => rfl
      | some c' =>
          have := (step_preserves f n args c c' t hinv hs).2
          omega
  | succ k ih =>
      by_cases hstuck : ∀ t, step f t c = none
      · exact ⟨[], inv_stuck f n args c hinv hstuck⟩
      · obtain ⟨t, ht⟩ := not_forall.1 hstuck
        cases hs : step f t c with
        | none => exact absurd hs ht
        | some c' =>
            obtain ⟨hinv', hdec⟩ := step_preserves f n args c c' t hinv hs
            obtain ⟨sched, hsched⟩ := ih c' hinv' (by omega)
            refine ⟨t :: sched, ?_⟩
            simp only [exec, hs, Option.getD_some]
            exact hsched

/-- A step leaves the barrier as it is or counts one caller of `sync()` in. -/
theorem step_barrier {Ptr σ : Type} (f : TileRoutine Ptr σ) (t : Nat) (c c' : Config Ptr σ)
    (hs : step f t c = some c') :
    c'.barrier = c.barrier ∨ c'.barrier = c.barrier.sync_arrive := by
  unfold step at hs
  split at hs
  · simp at hs
  · simp at hs
  · simp only [Option.some.injEq] at hs
    subst hs; exact Or.inl rfl
  · simp only [Option.some.injEq] at hs
    subst hs; exact Or.inr rfl
  · split at hs
    · simp at hs
    · simp only [Option.some.injEq] at hs
      subst hs; exact Or.inl rfl

/-- Arrivals compose. -/
theorem arrivals_add (a b : Nat) (x : Barrier) :
    Barrier.arrivals (a + b) x = Barrier.arrivals a (Barrier.arrivals b x) := by
  induction a with
  | zero => simp [Barrier.arrivals]
  | succ a ih =>
      rw [Nat.add_right_comm]
      simp only [Barrier.arrivals, ih]

/-- Fewer than `K` arrivals in an epoch are counted and the epoch stays. -/
theorem arrivals_waiting (K n j : Nat) (hj : j < K) :
    Barrier.arrivals j ⟨K, 0, n⟩ = ⟨K, j, n⟩ := by
  induction j with
  | zero => rfl
  | succ j ih =>
      simp only [Barrier.arrivals, ih (by omega)]
      simp [Barrier.sync_arrive, Barrier.arrive, Barrier.phase, hj]

/-- The `K`-th arrival of an epoch resets the count and starts the next epoch. -/
theorem arrivals_full (K n : Nat) (hK : 1 ≤ K) :
    Barrier.arrivals K ⟨K, 0, n⟩ = ⟨K, 0, n + 1⟩ := by
  obtain ⟨k, rfl⟩ : ∃ k, K = k + 1 := ⟨K - 1, by omega⟩
  simp only [Barrier.arrivals, arrivals_waiting (k + 1) n k (by omega)]
  simp [Barrier.sync_arrive, Barrier.arrive, Barrier.phase, Barrier.reset]

/-- After `n` times `K` arrivals the barrier is in epoch `n` with nobody arrived. -/
theorem arrivals_rounds (K n : Nat) (hK : 1 ≤ K) :
    Barrier.arrivals (n * K) ⟨K, 0, 0⟩ = ⟨K, 0, n⟩ := by
  induction n with
  | zero => simp [Barrier.arrivals]
  | succ n ih =>
      rw [Nat.succ_mul, Nat.add_comm, arrivals_add, ih, arrivals_full K n hK]

/-- A tile that has returned a value is at the end of its program. -/
theorem returned_pending {Ptr : Type} (ts : TileState Ptr) (v : Int)
    (h : ts.returned = some v) : ts = TileState.running (Prog.ret v) ∧ ts.pending = 0 := by
  cases ts with
  | running p =>
      cases p with
      | ret w =>
          simp only [TileState.returned, Option.some.injEq] at h
          subst h
          exact ⟨rfl, rfl⟩
      | call_single_tile A B C W k => simp [TileState.returned] at h
      | call_sync k => simp [TileState.returned] at h
  | blocked e k => simp [TileState.returned] at h

/-- A tile that has returned has returned 0, and then every tile is inside `sync()` or
has returned. -/
theorem inv_after_sync {Ptr σ : Type} (n : Nat) (args : List (KernelArgs Ptr))
    (c : Config Ptr σ) (hinv : LaunchInv n args c) (t : Nat) (ts : TileState Ptr) (v : Int)
    (hts : c.tiles[t]? = some ts) (hret : ts.returned = some v) :
    v = 0 ∧ c.barrier = ⟨args.length, 0, n + 1⟩ ∧
    ∀ u, u < args.length →
      c.tiles[u]? = some (TileState.blocked n (Prog.ret 0)) ∨
      c.tiles[u]? = some (TileState.running (Prog.ret 0)) := by
  obtain ⟨hform, hpend⟩ := returned_pending ts v hret
  obtain ⟨h0, hbar, hall⟩ := inv_safety n args c hinv t ts hts hpend
  refine ⟨?_, hbar, ?_⟩
  · rw [hform] at h0
    simp only [TileState.running.injEq, Prog.ret.injEq] at h0
    exact h0
  · intro u hu
    obtain ⟨us, hus, hle⟩ := hall u hu
    have ha : args[u]? = some args[u] := List.getElem?_eq_getElem hu
    rcases hinv.2.2.1 u _ us ha hus with h1 | h1 | h1 | h1
    · rw [h1, (flags_kernel _).1] at hle; omega
    · rw [h1, flags_before_sync.1] at hle; omega
    · exact Or.inl (h1 ▸ hus)
    · exact Or.inr (h1 ▸ hus)

/-! ## Memory with `sync()` as its fence: general facts -/

/-- C5: the barrier of the kernel is sized for `K = bsg_tiles_X * bsg_tiles_Y`
participants.  When `K ≥ 1` tiles each invoke `kernel_vec_add`, then in the configuration
`c` reached under any schedule: a tile for which `sync()` has returned (it then returns 0)
is only found when every tile of the group has entered `sync()`; the group is not stuck
unless all tiles have returned 0; the group started with `3 * K` steps to take and every
step taken from `c` leaves one less; and from `c` the launch can run on to the point where
all `K` invocations have returned 0. -/
theorem barrier_rendezvous {Ptr σ : Type} (f : TileRoutine Ptr σ)
    (bsg_tiles_X bsg_tiles_Y K : Nat) (hKXY : K = bsg_tiles_X * bsg_tiles_Y) (hK : 1 ≤ K)
    (m : σ) (args : List (KernelArgs Ptr)) (hargs : args.length = K)
    (sched : List Nat) (c : Config Ptr σ)
    (hc : c = exec f sched (launch bsg_tiles_X bsg_tiles_Y m args)) :
    (barrier bsg_tiles_X bsg_tiles_Y).participants = K ∧
    (∀ (t : Nat) (ts : TileState Ptr) (v : Int),
      c.tiles[t]? = some ts → ts.returned = some v →
      v = 0 ∧ ∀ u, u < K →
        c.tiles[u]? = some (TileState.blocked 0 (Prog.ret 0)) ∨
        c.tiles[u]? = some (TileState.running (Prog.ret 0))) ∧
    ((∀ t, step f t c = none) →
      ∀ t, t < K → c.tiles[t]? = some (TileState.running (Prog.ret 0))) ∧
    totalPending (launch bsg_tiles_X bsg_tiles_Y m args).tiles = 3 * K ∧
    (∀ (t : Nat) (c' : Config Ptr σ),
      step f t c = some c' → totalPending c'.tiles + 1 = totalPending c.tiles) ∧
    ∃ more : List Nat, ∀ t, t < K →
      (exec f (sched ++ more) (launch bsg_tiles_X bsg_tiles_Y m args)).tiles[t]? =
        some (TileState.running (Prog.ret 0)) := by
  subst hc
  have hb : barrier bsg_tiles_X bsg_tiles_Y = ⟨args.length, 0, 0⟩ := by
    rw [hargs, hKXY]; rfl
  have hinit : LaunchInv 0 args (launch bsg_tiles_X bsg_tiles_Y m args) := by
    unfold launch
    rw [hb]
    exact launchInv_init 0 m args (by omega)
  have hinv := exec_inv f 0 args sched _ hinit
  rw [← hargs]
  refine ⟨by rw [hb], ?_, ?_, ?_, ?_, ?_⟩
  · intro t ts v hts hret
    obtain ⟨h0, _, hall⟩ := inv_after_sync 0 args _ hinv t ts v hts hret
    exact ⟨h0, hall⟩
  · exact inv_stuck f 0 args _ hinv
  · exact (launchOn_counts _ m args).2.2
  · intro t c' hs
    exact (step_preserves f 0 args _ c' t hinv hs).2
  · obtain ⟨more, hmore⟩ := inv_complete f 0 args _ _ hinv rfl
    exact ⟨more, by rw [exec_append]; exact hmore⟩

/-- Witness of C5: a group of 2 x 1 tiles; after tile 1 has run its routine and entered
`sync()` and tile 0 has only run its routine, tile 1 is held in `sync()`; the launch can
be completed from there. -/
theorem barrier_rendezvous_witness :
    (2 = 2 * 1 ∧ 1 ≤ 2 ∧ (demoArgs).length = 2) ∧
    (exec (cellRoutine 42) [1, 1, 0, 1] (launch 2 1 (fun _ => 0) demoArgs)).tiles[1]? =
      some (TileState.blocked 0 (Prog.ret 0)) ∧
    ∃ more : List Nat, ∀ t, t < 2 →
      (exec (cellRoutine 42) ([1, 1, 0, 1] ++ more)
        (launch 2 1 (fun _ => 0) demoArgs)).tiles[t]? = some (TileState.running (Prog.ret 0)) :=
  ⟨⟨rfl, by decide, rfl⟩, rfl,
    (barrier_rendezvous (cellRoutine 42) 2 1 2 rfl (by decide) (fun _ => 0) demoArgs rfl
      [1, 1, 0, 1] _ rfl).2.2.2.2.2⟩

/-- C7: the barrier starts WAITING in epoch 0 with nobody arrived.  After `n` full epochs
of `K = bsg_tiles_X * bsg_tiles_Y` calls of `sync()` it is WAITING in epoch `n` with
count 0; in epoch `n`, after `j < K` arrivals it is WAITING with count `j`, and the next
arrival makes it RELEASED exactly when it is the `K`-th; it then resets to count 0 in
epoch `n + 1`.  A launch of `K` kernel invocations on that same barrier object (a step of
the kernel leaves the barrier alone or counts one `sync()` caller, it never constructs
it) again holds every tile in `sync()` until all `K` have arrived, and then releases them
all, leaving the barrier at count 0 in epoch `n + 1`. -/
theorem barrier_reuse {Ptr σ : Type} (f : TileRoutine Ptr σ)
    (bsg_tiles_X bsg_tiles_Y K : Nat) (hKXY : K = bsg_tiles_X * bsg_tiles_Y) (hK : 1 ≤ K)
    (n : Nat) (m : σ) (args : List (KernelArgs Ptr)) (hargs : args.length = K)
    (sched : List Nat) (c : Config Ptr σ)
    (hc : c = exec f sched
      (launchOn (Barrier.arrivals (n * K) (barrier bsg_tiles_X bsg_tiles_Y)) m args)) :
    (barrier bsg_tiles_X bsg_tiles_Y = ⟨K, 0, 0⟩ ∧
      (barrier bsg_tiles_X bsg_tiles_Y).phase = Phase.WAITING) ∧
    Barrier.arrivals (n * K) (barrier bsg_tiles_X bsg_tiles_Y) = ⟨K, 0, n⟩ ∧
    (∀ j, j < K →
      Barrier.arrivals (j + n * K) (barrier bsg_tiles_X bsg_tiles_Y) = ⟨K, j, n⟩ ∧
      (⟨K, j, n⟩ : Barrier).phase = Phase.WAITING ∧
      ((⟨K, j, n⟩ : Barrier).arrive.phase = Phase.RELEASED ↔ j + 1 = K)) ∧
    Barrier.arrivals ((n + 1) * K) (barrier bsg_tiles_X bsg_tiles_Y) = ⟨K, 0, n + 1⟩ ∧
    (∀ (t : Nat) (c' : Config Ptr σ), step f t c = some c' →
      c'.barrier = c.barrier ∨ c'.barrier = c.barrier.sync_arrive) ∧
    (∀ (t : Nat) (ts : TileState Ptr) (v : Int),
      c.tiles[t]? = some ts → ts.returned = some v →
      c.barrier = ⟨K, 0, n + 1⟩ ∧
      ∀ u, u < K →
        c.tiles[u]? = some (TileState.blocked n (Prog.ret 0)) ∨
        c.tiles[u]? = some (TileState.running (Prog.ret 0))) ∧
    ((∀ t, step f t c = none) →
      ∀ t, t < K → c.tiles[t]? = some (TileState.running (Prog.ret 0))) ∧
    ∃ more : List Nat, ∀ t, t < K →
      (exec f (sched ++ more)
        (launchOn (Barrier.arrivals (n * K) (barrier bsg_tiles_X bsg_tiles_Y)) m args)).tiles[t]? =
          some (TileState.running (Prog.ret 0)) := by
  subst hc
  have hb0 : barrier bsg_tiles_X bsg_tiles_Y = ⟨K, 0, 0⟩ := by rw [hKXY]; rfl
  have hbn : Barrier.arrivals (n * K) (barrier bsg_tiles_X bsg_tiles_Y) = ⟨K, 0, n⟩ := by
    rw [hb0]; exact arrivals_rounds _ n hK
  have hinit : LaunchInv n args
      (launchOn (Barrier.arrivals (n * K) (barrier bsg_tiles_X bsg_tiles_Y)) m args) := by
    rw [hbn, ← hargs]
    exact launchInv_init n m args (by omega)
  have hinv := exec_inv f n args sched _ hinit
  refine ⟨⟨hb0, ?_⟩, hbn, ?_, ?_, ?_, ?_, ?_, ?_⟩
  · rw [hb0]
    simp only [Barrier.phase]
    rw [if_pos (by omega)]
  · intro j hj
    refine ⟨?_, ?_, ?_⟩
    · rw [arrivals_add, hbn, arrivals_waiting _ n j hj]
    · simp only [Barrier.phase]
      rw [if_pos hj]
    · simp only [Barrier.phase, Barrier.arrive]
      constructor
      · intro h
        by_contra hne
        rw [if_pos (by omega)] at h
        exact absurd h (by decide)
      · intro h
        rw [if_neg (by omega)]
  · rw [hb0]; exact arrivals_rounds _ (n + 1) hK
  · intro t c' hs
    exact step_barrier f t _ c' hs
  · intro t ts v hts hret
    obtain ⟨_, hbar, hall⟩ := inv_after_sync n args _ hinv t ts v hts hret
    rw [hargs] at hbar hall
    exact ⟨hbar, hall⟩
  · intro hstuck t ht
    exact inv_stuck f n args _ hinv hstuck t (by omega)
  · obtain ⟨more, hmore⟩ := inv_complete f n args _ _ hinv rfl
    refine ⟨more, fun t ht => ?_⟩
    rw [exec_append]
    exact hmore t (by omega)

/-- Witness of C7: 2 x 1 tiles, the barrier having been through one full epoch (two
`sync()` calls) before: in the second launch tile 0 is held in `sync()` in epoch 1 while
tile 1 has not arrived, and the completed launch leaves the barrier at count 0 in
epoch 2. -/
theorem barrier_reuse_witness :
    (2 = 2 * 1 ∧ 1 ≤ 2 ∧ (demoArgs).length = 2) ∧
    (exec (cellRoutine 42) [0, 0, 0, 1, 0]
      (launchOn (Barrier.arrivals (1 * 2) (barrier 2 1)) (fun _ => 0) demoArgs)).tiles[0]? =
        some (TileState.blocked 1 (Prog.ret 0)) ∧
    (exec (cellRoutine 42) [0, 0, 0, 1, 0, 1, 0, 1]
      (launchOn (Barrier.arrivals (1 * 2) (barrier 2 1)) (fun _ => 0) demoArgs)).barrier =
        ⟨2, 0, 2⟩ ∧
    Barrier.arrivals ((1 + 1) * 2) (barrier 2 1) = ⟨2, 0, 1 + 1⟩ :=
  ⟨⟨rfl, by decide, rfl⟩, rfl, rfl,
    (barrier_reuse (cellRoutine 42) 2 1 2 rfl (by decide) 1 (fun _ => 0) demoArgs rfl
      [0, 0, 0, 1, 0] _ rfl).2.2.2.1⟩

end VecAdd
